import Mathlib

/-!
Verification of `contenthandlers.py` (althingi-document-cleaner).

Shallow embedding: Python strings are `List Char`; every string operation used
by the source (`str.replace`, `str.find`, `str.split`, slicing, `str.strip`,
`re.sub` with the concrete patterns appearing in the source) is embedded as an
executable Lean function.  Fallible code paths (exceptions such as
`AttributeError` / `IndexError`, and the non-terminating table-protection loop,
bounded here by fuel) are modelled with `Option`, `none` meaning "does not
return normally".
-/

set_option maxRecDepth 10000

/-! ### String primitives -/

/-- Boolean test that `pat` is a leading segment of `t`
(the check Python performs at one position of `str.find` / `str.replace`). -/
def leadsWith : List Char → List Char → Bool
  | [], _ => true
  | _ :: _, [] => false
  | a :: as, b :: bs => a == b && leadsWith as bs

/-- Position of the first occurrence of `pat` in `t`
(`str.find` with start 0), `none` when absent. -/
def findSub : List Char → List Char → Option Nat
  | pat, [] => if leadsWith pat [] then some 0 else none
  | pat, c :: rest =>
    if leadsWith pat (c :: rest) then some 0
    else (findSub pat rest).map (· + 1)

/-- Python `text.find(pat, start)`: `-1` when absent, else the absolute index. -/
def pyFindFrom (pat text : List Char) (start : Nat) : Int :=
  match findSub pat (text.drop start) with
  | some p => (start : Int) + p
  | none => -1

/-- Whether `pat` occurs somewhere in `t` (Python `text.find(pat) > -1`). -/
def hasSub (pat t : List Char) : Bool :=
  (findSub pat t).isSome

/-- Worker for Python `str.replace`: scan left to right; a positive `skip`
means the scanner is inside an already-replaced occurrence and still has
that many source characters to pass over. -/
def replaceGo (pat rep : List Char) : Nat → List Char → List Char
  | _, [] => []
  | skip + 1, _ :: rest => replaceGo pat rep skip rest
  | 0, c :: rest =>
    if leadsWith pat (c :: rest) then
      rep ++ replaceGo pat rep (pat.length - 1) rest
    else c :: replaceGo pat rep 0 rest

/-- Python `text.replace(pat, rep)` for a non-empty `pat`: replace every
non-overlapping occurrence, left to right. -/
def replaceL (pat rep t : List Char) : List Char :=
  replaceGo pat rep 0 t

/-- Consume a mandatory literal `pat` at the head of `t`
(one regex-literal step of the hand-rolled `re.sub` matchers below). -/
def dropLit (pat t : List Char) : Option (List Char) :=
  if leadsWith pat t then some (t.drop pat.length) else none

/-- Consume an optional single character (a greedy regex `c?` step). -/
def optChar (c : Char) (t : List Char) : List Char :=
  match t with
  | c' :: rest => if c' = c then rest else t
  | [] => t

/-- Strip characters satisfying `p` from both ends (Python `str.strip`). -/
def stripEnds (p : Char → Bool) (t : List Char) : List Char :=
  ((t.dropWhile p).reverse.dropWhile p).reverse

/-- Python `str.strip()` (whitespace at both ends). -/
def pyStripWs (t : List Char) : List Char :=
  stripEnds Char.isWhitespace t

/-- Python `str.strip(')')`. -/
def pyStripClose (t : List Char) : List Char :=
  stripEnds (fun c => c = ')') t

/-- Python `str.strip('.')`. -/
def pyStripDots (t : List Char) : List Char :=
  stripEnds (fun c => c = '.') t

/-- Clamp a (possibly negative) Python slice index to an absolute position. -/
def pyIdx (len : Nat) (i : Int) : Nat :=
  if i < 0 then ((len : Int) + i).toNat else min i.toNat len

/-- Python `t[a:b]` with arbitrary integer endpoints. -/
def pySlice (t : List Char) (a b : Int) : List Char :=
  (t.take (pyIdx t.length b)).drop (pyIdx t.length a)

/-- Python `t[a:]`. -/
def pySliceEnd (t : List Char) (a : Int) : List Char :=
  t.drop (pyIdx t.length a)

/-- Python `content.split('.')`. -/
def splitOnDot : List Char → List (List Char)
  | [] => [[]]
  | c :: rest =>
    if c = '.' then [] :: splitOnDot rest
    else
      match splitOnDot rest with
      | [] => [[c]]
      | s :: ss => (c :: s) :: ss

/-- Python `chunk[chunk.rfind(' ')+1:]`: the suffix after the last space. -/
def lastWord (chunk : List Char) : List Char :=
  (chunk.reverse.takeWhile (fun c => c ≠ ' ')).reverse

/-! ### MarkerCodec: `strip_markers` and `regexify_markers` -/

/-- The superscript opening tag, `'<sup style="font-size:60%">'` (27 chars). -/
def supTag27 : List Char := "<sup style=\"font-size:60%\">".toList

/-- The closing tag `'</sup>'`. -/
def supEndTag : List Char := "</sup>".toList

/-- Head match of the `re.sub` pattern
`<sup style="font-size:60%"> \d+\) </sup>` used by `strip_markers`;
returns the remaining suffix on success.  The pattern is deterministic
(each literal/optional element is followed by a disjoint one), so the
greedy scan below is exactly the regex's leftmost match behavior. -/
def matchSup (t : List Char) : Option (List Char) :=
  match dropLit (supTag27 ++ [' ']) t with
  | none => none
  | some t1 =>
    if (t1.takeWhile Char.isDigit).isEmpty then none
    else dropLit (") </sup>".toList) (t1.drop (t1.takeWhile Char.isDigit).length)

/-- `re.sub(r'<sup style="font-size:60%"> \d+\) </sup>', '', text)`: delete
every occurrence, left to right (`skip` as in `replaceGo`). -/
def subSupGo : Nat → List Char → List Char
  | _, [] => []
  | skip + 1, _ :: rest => subSupGo skip rest
  | 0, c :: rest =>
    match matchSup (c :: rest) with
    | some s => subSupGo (rest.length - s.length) rest
    | none => c :: subSupGo 0 rest

/-- The superscript-annotation deletion stage of `strip_markers`. -/
def subSup (t : List Char) : List Char :=
  subSupGo 0 t

/-- Whether the text contains an occurrence of the superscript-annotation
pattern `<sup style="font-size:60%"> \d+\) </sup>` (at any position). -/
def containsSup : List Char → Bool
  | [] => false
  | c :: rest => (matchSup (c :: rest)).isSome || containsSup rest

/-- The `while text.find('  ') > -1: text = text.replace('  ', ' ')` loop,
with fuel; each productive pass strictly shrinks the text, so
`length + 1` fuel always suffices (proved below). -/
def collapseAux : Nat → List Char → List Char
  | 0, t => t
  | fuel + 1, t =>
    if hasSub [' ', ' '] t then collapseAux fuel (replaceL [' ', ' '] [' '] t)
    else t

/-- Space-collapsing stage of `strip_markers`. -/
def collapseSpaces (t : List Char) : List Char :=
  collapseAux (t.length + 1) t

/-- `strip_markers(text)`: drops ellipses, brackets and whole superscript
annotations, collapses runs of spaces, removes a space before a comma. -/
def strip_markers (text : List Char) : List Char :=
  let t := replaceL ['…'] [] text
  let t := replaceL ['['] [] t
  let t := replaceL [']'] [] t
  let t := subSup t
  let t := collapseSpaces t
  replaceL [' ', ','] [','] t

/-- Replacement string of the first `re.sub` of `regexify_markers`
(`(\[? ?)?`). -/
def repl1 : List Char := "(\\[? ?)?".toList

/-- First `re.sub` of `regexify_markers`: `\[ ?` (greedy on the optional
space) becomes `(\[? ?)?`. -/
def sub1 : List Char → List Char
  | [] => []
  | '[' :: ' ' :: rest => repl1 ++ sub1 rest
  | '[' :: rest => repl1 ++ sub1 rest
  | c :: rest => c :: sub1 rest

/-- Head match of `\],? <sup style="font-size:60%"> ?\d+\) ?</sup>,? ?`
(second `re.sub` pattern of `regexify_markers`); deterministic greedy scan. -/
def matchTwo (t : List Char) : Option (List Char) :=
  match dropLit [']'] t with
  | none => none
  | some t1 =>
    match dropLit (' ' :: supTag27) (optChar ',' t1) with
    | none => none
    | some t2 =>
      if ((optChar ' ' t2).takeWhile Char.isDigit).isEmpty then none
      else
        match dropLit [')'] ((optChar ' ' t2).drop
            ((optChar ' ' t2).takeWhile Char.isDigit).length) with
        | none => none
        | some t3 =>
          match dropLit supEndTag (optChar ' ' t3) with
          | none => none
          | some t4 => some (optChar ' ' (optChar ',' t4))

/-- Replacement string of the second `re.sub`
(`(\],? <sup( style="font-size:60%")?> ?\d+\) ?</sup>)?,? ?`; the template's
escapes `\]`, `\d`, `\)` are taken literally, as the source intends). -/
def repl2 : List Char :=
  "(\\],? <sup( style=\"font-size:60%\")?> ?\\d+\\) ?</sup>)?,? ?".toList

/-- Worker for the second `re.sub` of `regexify_markers`. -/
def sub2Go : Nat → List Char → List Char
  | _, [] => []
  | skip + 1, _ :: rest => sub2Go skip rest
  | 0, c :: rest =>
    match matchTwo (c :: rest) with
    | some s => repl2 ++ sub2Go (rest.length - s.length) rest
    | none => c :: sub2Go 0 rest

/-- Second `re.sub` of `regexify_markers`. -/
def sub2 (t : List Char) : List Char :=
  sub2Go 0 t

/-- Head match of `… <sup style="font-size:60%"> \d+\) </sup>,? ?`
(third `re.sub` pattern of `regexify_markers`). -/
def matchThree (t : List Char) : Option (List Char) :=
  match dropLit ('…' :: ' ' :: supTag27 ++ [' ']) t with
  | none => none
  | some t1 =>
    if (t1.takeWhile Char.isDigit).isEmpty then none
    else
      match dropLit (") </sup>".toList)
          (t1.drop (t1.takeWhile Char.isDigit).length) with
      | none => none
      | some t2 => some (optChar ' ' (optChar ',' t2))

/-- Replacement string of the third `re.sub`
(`(… <sup( style="font-size:60%")?> \d+\) </sup>)?,? ?`). -/
def repl3 : List Char :=
  "(… <sup( style=\"font-size:60%\")?> \\d+\\) </sup>)?,? ?".toList

/-- Worker for the third `re.sub` of `regexify_markers`. -/
def sub3Go : Nat → List Char → List Char
  | _, [] => []
  | skip + 1, _ :: rest => sub3Go skip rest
  | 0, c :: rest =>
    match matchThree (c :: rest) with
    | some s => repl3 ++ sub3Go (rest.length - s.length) rest
    | none => c :: sub3Go 0 rest

/-- Third `re.sub` of `regexify_markers`. -/
def sub3 (t : List Char) : List Char :=
  sub3Go 0 t

/-- `regexify_markers(text)`: the three marker `re.sub`s followed by
`text.replace(' ,', ' ?,')`. -/
def regexify_markers (text : List Char) : List Char :=
  let t := sub1 text
  let t := sub2 t
  let t := sub3 t
  replaceL [' ', ','] [' ', '?', ','] t

/-! ### A small regex engine

The spec's contract for `regexify` speaks of the produced pattern "compiled
as a regular expression".  We embed the fragment of Python-`re` syntax that
`regexify_markers` can produce for ordinary text: literals, `.`, escaped
metacharacters, `\d`, groups, alternation and the quantifiers `? + *`
(a lone quantifier with nothing to repeat fails to compile, as in `re`).
Unsupported constructs (character classes, anchors, counted repeats,
backreferences) make `compile` return `none`.  Matching is full-string
matching via Brzozowski derivatives. -/

inductive RE : Type where
  | emp : RE
  | eps : RE
  | ch : Char → RE
  | anyc : RE
  | digit : RE
  | seq : RE → RE → RE
  | alt : RE → RE → RE
  | star : RE → RE
  | plus : RE → RE
  | opt : RE → RE
deriving DecidableEq

/-- Does the regex accept the empty string? -/
def RE.nullable : RE → Bool
  | .emp => false
  | .eps => true
  | .ch _ => false
  | .anyc => false
  | .digit => false
  | .seq a b => a.nullable && b.nullable
  | .alt a b => a.nullable || b.nullable
  | .star _ => true
  | .plus a => a.nullable
  | .opt _ => true

/-- Brzozowski derivative with respect to one character. -/
def RE.deriv : RE → Char → RE
  | .emp, _ => .emp
  | .eps, _ => .emp
  | .ch d, c => if c = d then .eps else .emp
  | .anyc, c => if c = '\n' then .emp else .eps
  | .digit, c => if c.isDigit then .eps else .emp
  | .seq a b, c =>
    if a.nullable then .alt (.seq (a.deriv c) b) (b.deriv c)
    else .seq (a.deriv c) b
  | .alt a b, c => .alt (a.deriv c) (b.deriv c)
  | .star a, c => .seq (a.deriv c) (.star a)
  | .plus a, c => .seq (a.deriv c) (.star a)
  | .opt a, c => a.deriv c

/-- Full-string regex match. -/
def rmatch (r : RE) (s : List Char) : Bool :=
  (s.foldl RE.deriv r).nullable

/-- The regex matching exactly the literal string `T`. -/
def litRE (T : List Char) : RE :=
  T.foldr (fun c r => RE.seq (RE.ch c) r) RE.eps

/-- Characters that cannot stand alone as a one-character regex atom in
the embedded fragment. -/
def specialChar (c : Char) : Bool :=
  c = '(' || c = ')' || c = '?' || c = '*' || c = '+' ||
  c = '\\' || c = '|' || c = '[' || c = ']' || c = '^' || c = '$'

/-- Is `c` a quantifier character? -/
def quantChar (c : Char) : Bool :=
  c = '?' || c = '+' || c = '*'

/-- Escaped atoms (`\[`, `\]`, `\(`, `\)`, `\d`, `\\`, `\.` and escaped
quantifiers); other escapes are unsupported. -/
def escAtom (c : Char) : Option RE :=
  if c = 'd' then some RE.digit
  else if c = '[' || c = ']' || c = '(' || c = ')' || c = '\\' || c = '.' ||
      c = '+' || c = '*' || c = '?' || c = '|' || c = '^' || c = '$' then
    some (RE.ch c)
  else none

/-- After one quantifier: an extra `?` is the lazy marker (same language);
a further quantifier is a multiple-repeat error. -/
def postTail (a : RE) (s : List Char) : Option (RE × List Char) :=
  match s with
  | [] => some (a, s)
  | c :: r =>
    if c = '?' then
      match r with
      | c2 :: _ => if quantChar c2 then none else some (a, r)
      | [] => some (a, r)
    else if quantChar c then none
    else some (a, s)

/-- Attach at most one quantifier to a parsed atom. -/
def applyPost (a : RE) (s : List Char) : Option (RE × List Char) :=
  match s with
  | [] => some (a, s)
  | c :: r =>
    if c = '?' then postTail (RE.opt a) r
    else if c = '+' then postTail (RE.plus a) r
    else if c = '*' then postTail (RE.star a) r
    else some (a, s)

/-- Parser modes: alternation level, concatenation level, single atom. -/
inductive PMode : Type where
  | alt : PMode
  | cat : PMode
  | atom : PMode

/-- The recursive-descent parser for the embedded regex fragment, all three
levels in one fuel-indexed function (`PMode` selects the level). -/
def parseF : Nat → PMode → List Char → Option (RE × List Char)
  | 0, _, _ => none
  | fuel + 1, PMode.alt, s =>
    match parseF fuel PMode.cat s with
    | none => none
    | some (r, s1) =>
      match s1 with
      | [] => some (r, s1)
      | c1 :: s2 =>
        if c1 = '|' then
          match parseF fuel PMode.alt s2 with
          | none => none
          | some (r2, s3) => some (RE.alt r r2, s3)
        else some (r, c1 :: s2)
  | fuel + 1, PMode.cat, s =>
    match s with
    | [] => some (RE.eps, [])
    | c :: _ =>
      if c = ')' || c = '|' then some (RE.eps, s)
      else
        match parseF fuel PMode.atom s with
        | none => none
        | some (a, s1) =>
          match applyPost a s1 with
          | none => none
          | some (a2, s2) =>
            match parseF fuel PMode.cat s2 with
            | none => none
            | some (r, s3) => some (RE.seq a2 r, s3)
  | fuel + 1, PMode.atom, s =>
    match s with
    | [] => none
    | c :: r =>
      if c = '(' then
        match parseF fuel PMode.alt r with
        | none => none
        | some (inner, r1) =>
          match r1 with
          | [] => none
          | c2 :: r2 => if c2 = ')' then some (inner, r2) else none
      else if c = '\\' then
        match r with
        | [] => none
        | e :: r2 =>
          match escAtom e with
          | none => none
          | some a => some (a, r2)
      else if c = '.' then some (RE.anyc, r)
      else if specialChar c then none
      else some (RE.ch c, r)

/-- Compile a whole pattern string (must consume all input). -/
def compile (s : List Char) : Option RE :=
  match parseF (2 * s.length + 4) PMode.alt s with
  | some (r, []) => some r
  | _ => none

/-! ### FootnoteLocator: `next_footnote_sup` -/

/-- The slice of the document tree that `next_footnote_sup` reads: the
node's text and the next sibling's text (`getnext().text`); `nextText = none`
models `getnext()` returning `None`. -/
structure FElem : Type where
  text : List Char
  nextText : Option (List Char)

/-- `next_footnote_sup(elem, cursor)`.  `none` models the `AttributeError`
raised when no next sibling exists; every other path returns the (possibly
empty) string the Python code builds by slicing and stripping. -/
def next_footnote_sup (elem : FElem) (cursor : Nat) : Option (List Char) :=
  if pyFindFrom supTag27 elem.text cursor > -1 then
    let haystack := elem.text
    let numStart : Int := pyFindFrom supTag27 haystack cursor + 27
    let numEnd : Int := pyFindFrom supEndTag haystack cursor
    some (pyStripClose (pyStripWs (pySlice haystack numStart numEnd)))
  else
    match elem.nextText with
    | none => none
    | some haystack =>
      let numStart : Int := pyFindFrom supTag27 haystack 0 + 27
      let numEnd : Int := pyFindFrom supEndTag haystack 0
      some (pyStripClose (pyStripWs (pySlice haystack numStart numEnd)))

/-! ### LocationPathBuilder: `generate_ancestors` -/

/-- A tree node as `generate_ancestors` sees it: lxml element identity is
modelled by `id`; `nr` is the optional `nr` attribute. -/
structure PyNode : Type where
  id : Nat
  tag : String
  nr : Option String

/-- The tree context of the processed element: `iterancestors()` order
(parent first, root last) and the sibling list containing the node. -/
structure TElem : Type where
  node : PyNode
  ancestors : List PyNode
  siblings : List PyNode

/-- Modelled from the spec: `order_among_siblings` (in `utils.py`, outside
`src/`) returns the 1-based ordinal position of the node among its
siblings. -/
def order_among_siblings (siblings : List PyNode) (node : PyNode) : Nat :=
  siblings.findIdx (fun s => s.id = node.id) + 1

/-- The `for ancestor in elem.iterancestors()` loop: each visited ancestor's
`(tag, nr)` is inserted at the front (so the final list is rootward-first);
the loop breaks after including `parent`; a missing `nr` attribute raises
`KeyError` (`none`), checked before the break test as in the source. -/
def ancLoop : List PyNode → PyNode → Option (List (String × String))
  | [], _ => some []
  | a :: rest, parent =>
    match a.nr with
    | none => none
    | some v =>
      if a.id = parent.id then some [(a.tag, v)]
      else
        match ancLoop rest parent with
        | none => none
        | some l => some (l ++ [(a.tag, v)])

/-- `generate_ancestors(elem, parent)`: the ancestor walk followed by the
terminal entry for the node itself — `(tag, none)` (the `E(elem.tag)` call
that drops the `nr` value) when the node has a `nr` attribute, else
`(tag, str(order_among_siblings(elem)))`. -/
def generate_ancestors (elem : TElem) (parent : PyNode) :
    Option (List (String × Option String)) :=
  match ancLoop elem.ancestors parent with
  | none => none
  | some l =>
    match elem.node.nr with
    | some _ => some (l.map (fun e => (e.1, some e.2)) ++ [(elem.node.tag, none)])
    | none =>
      some (l.map (fun e => (e.1, some e.2)) ++
        [(elem.node.tag, some (toString (order_among_siblings elem.siblings elem.node)))])

/-- The prefix of the ancestor chain the loop visits: everything up to and
including the first node with the parent's identity. -/
def takeThrough (pid : Nat) : List PyNode → List PyNode
  | [] => []
  | a :: rest => if a.id = pid then [a] else a :: takeThrough pid rest

/-- Whether some node in the list has the given identity. -/
def containsId (l : List PyNode) (pid : Nat) : Bool :=
  l.any (fun a => a.id = pid)

/-! ### SentenceSegmenter: `separate_sentences` -/

/-- The dot placeholder `'[DOT]'`. -/
def dotTok : List Char := "[DOT]".toList

/-- `reference_shorthands = ['gr', 'mgr', 'málsl', 'tölul', 'staf']`. -/
def reference_shorthands : List (List Char) :=
  ["gr", "mgr", "málsl", "tölul", "staf"].map String.toList

/-- `recognized_shorts` (in source order; the replacements are applied
sequentially). -/
def recognized_shorts : List (List Char) :=
  ["t.d.", "þ.m.t.", "sbr.", "nr.", "skv.", "m.a.", "a.m.k.", "þ.e.",
    "o.fl"].map String.toList

/-- The abbreviation-protection pass: each recognized shorthand has its dots
replaced by `'[DOT]'` wherever it occurs. -/
def shortsEncode (content : List Char) : List Char :=
  recognized_shorts.foldl (fun c r => replaceL r (replaceL ['.'] dotTok r) c) content

/-- `'<table width="100%">'` (20 characters). -/
def tblOpen : List Char := "<table width=\"100%\">".toList

/-- `'</table>'` (8 characters). -/
def tblClose : List Char := "</table>".toList

/-- One-to-one embedding of the table-protection `while` loop, with fuel:
`none` models the loop still running when the fuel is exhausted (the source
loop has no bound of its own).  `loc` is the current `html_loc`. -/
def tableLoopAux : Nat → List Char → Nat → Int → Option (List Char)
  | 0, content, _, loc => if loc > -1 then none else some content
  | fuel + 1, content, cursor, loc =>
    if loc > -1 then
      let endLoc : Int := pyFindFrom tblClose content cursor + 8
      let tbl := replaceL ['.'] dotTok (pySlice content loc endLoc)
      let content2 := pySlice content 0 loc ++ tbl ++ pySliceEnd content endLoc
      tableLoopAux fuel content2 (loc.toNat + 1) (pyFindFrom tblOpen content2 (loc.toNat + 1))
    else some content

/-- The table-protection stage.  The fuel choice is immaterial for any
input whose loop exits (e.g. table-free text exits at once for any fuel). -/
def tableProtect (content : List Char) : Option (List Char) :=
  tableLoopAux (content.length + 1) content 0 (pyFindFrom tblOpen content 0)

/-- Python `str.islower()` on the one character the segmenter tests;
covers ASCII plus the lowercase Icelandic letters. -/
def pyIsLower (c : Char) : Bool :=
  c.isLower || c ∈ ['á', 'ð', 'é', 'í', 'ó', 'ú', 'ý', 'þ', 'æ', 'ö']

/-- Python `str.isdigit()`: non-empty and all digits. -/
def pyIsDigitStr (l : List Char) : Bool :=
  !l.isEmpty && l.all Char.isDigit

/-- Continuation rule (a): next chunk starts with a space then a lowercase
letter. -/
def ruleLower (nc : List Char) : Bool :=
  match nc with
  | ' ' :: c1 :: _ => pyIsLower c1
  | _ => false

/-- Continuation rule (b): next chunk starts with continuing punctuation. -/
def ruleSymbol (nc : List Char) : Bool :=
  match nc with
  | c :: _ => c ∈ [',', ';', '–', '-', '[', ']', '…']
  | [] => false

/-- Continuation rule (c): next chunk starts with a digit. -/
def ruleDigit (nc : List Char) : Bool :=
  match nc with
  | c :: _ => c.isDigit
  | [] => false

/-- End-of-chunk bookkeeping: re-append the dropped dot; on a split, decode
`'[DOT]'`, strip, emit the sentence and reset the buffer. -/
def finishChunk (split : Bool) (collected : List Char)
    (sens : List (List Char)) : List Char × List (List Char) :=
  if split then ([], sens ++ [pyStripWs (replaceL dotTok ['.'] (collected ++ ['.']))])
  else (collected ++ ['.'], sens)

/-- The chunk loop of `separate_sentences`.  `super_iter` is modelled from
the spec (`utils.py` is outside `src/`): iteration over the materialized
chunk list where `peek()` is the head of the remaining list and `peek(2)`
the element after it, `None` past the end.  `none` models the
`AttributeError` from `next_chunk2.strip()` when `peek(2)` is `None`. -/
def senLoop : List (List Char) → List Char → List (List Char) → Option (List (List Char))
  | [], _, sens => some sens
  | chunk :: rest, collected, sens =>
    if chunk.isEmpty then senLoop rest collected sens
    else
      match rest.head? with
      | none =>
        let p := finishChunk true (collected ++ chunk) sens
        senLoop rest p.1 p.2
      | some nc0 =>
        let nc := strip_markers nc0
        let split0 := !(ruleLower nc || ruleSymbol nc || ruleDigit nc)
        if lastWord chunk ∈ reference_shorthands then
          if pyIsDigitStr (pyStripWs nc) then
            match rest.get? 1 with
            | none => none
            | some nc2 =>
              let split := if pyStripWs nc2 ∈ reference_shorthands then false else split0
              let p := finishChunk split (collected ++ chunk) sens
              senLoop rest p.1 p.2
          else
            let p := finishChunk split0 (collected ++ chunk) sens
            senLoop rest p.1 p.2
        else
          let p := finishChunk split0 (collected ++ chunk) sens
          senLoop rest p.1 p.2

/-- The trailing-dot correction at the end of `separate_sentences`
(`content` here is the placeholder-encoded text, as in the source).
`none` models the `IndexError` of `sens[-1]` on an empty result. -/
def finalFix (content : List Char) (sens : List (List Char)) :
    Option (List (List Char)) :=
  if content ≠ [] ∧ content.getLast? ≠ some '.' then
    match sens.getLast? with
    | none => none
    | some s =>
      match s.getLast? with
      | none => none
      | some c =>
        if c = '.' then some (sens.dropLast ++ [pyStripDots s]) else some sens
  else some sens

/-- `separate_sentences(content)`: abbreviation protection, table
protection, dot-chunking, the reassembly loop, and the trailing-dot fix. -/
def separate_sentences (content : List Char) : Option (List (List Char)) :=
  let content := shortsEncode content
  match tableProtect content with
  | none => none
  | some content =>
    match senLoop (splitOnDot content) [] [] with
    | none => none
    | some sens => finalFix content sens

/-! ### Lemmas about the string primitives -/

theorem leadsWith_length {p t : List Char} (h : leadsWith p t = true) :
    p.length ≤ t.length := by
  induction p generalizing t with
  | nil => simp
  | cons a as ih =>
    cases t with
    | nil => simp [leadsWith] at h
    | cons b bs =>
      simp only [leadsWith, Bool.and_eq_true] at h
      simpa [List.length_cons] using Nat.succ_le_succ (ih h.2)

theorem leadsWith_append_self (p t : List Char) :
    leadsWith p (p ++ t) = true := by
  induction p with
  | nil => simp [leadsWith]
  | cons a as ih => simp [leadsWith, ih]

theorem leadsWith_append_of_le {p a : List Char} (b : List Char)
    (h : p.length ≤ a.length) : leadsWith p (a ++ b) = leadsWith p a := by
  induction p generalizing a with
  | nil => simp [leadsWith]
  | cons x xs ih =>
    cases a with
    | nil => simp at h
    | cons y ys =>
      simp only [List.cons_append, leadsWith, List.append_eq]
      rw [ih (by simpa using Nat.le_of_succ_le_succ h)]

theorem mem_of_leadsWith {p t : List Char} (h : leadsWith p t = true)
    {a : Char} (ha : a ∈ p) : a ∈ t := by
  induction p generalizing t with
  | nil => simp at ha
  | cons x xs ih =>
    cases t with
    | nil => simp [leadsWith] at h
    | cons y ys =>
      simp only [leadsWith, Bool.and_eq_true, beq_iff_eq] at h
      rcases List.mem_cons.mp ha with h1 | h1
      · exact h1 ▸ h.1 ▸ List.mem_cons_self _ _
      · exact List.mem_cons_of_mem _ (ih h.2 h1)

theorem findSub_bound {pat t : List Char} {p : Nat} (h : findSub pat t = some p) :
    p + pat.length ≤ t.length := by
  induction t generalizing p with
  | nil =>
    unfold findSub at h
    split at h
    next hl => cases h; simpa using leadsWith_length hl
    · cases h
  | cons c rest ih =>
    unfold findSub at h
    split at h
    next hl => cases h; simpa using leadsWith_length hl
    next =>
      rcases Option.map_eq_some'.mp h with ⟨q, hq, rfl⟩
      have := ih hq
      simp only [List.length_cons]
      omega

theorem mem_of_findSub {pat t : List Char} {p : Nat} (h : findSub pat t = some p)
    {a : Char} (ha : a ∈ pat) : a ∈ t := by
  induction t generalizing p with
  | nil =>
    unfold findSub at h
    split at h
    next hl => exact absurd (mem_of_leadsWith hl ha) (List.not_mem_nil a)
    · cases h
  | cons c rest ih =>
    unfold findSub at h
    split at h
    next hl => exact mem_of_leadsWith hl ha
    next =>
      rcases Option.map_eq_some'.mp h with ⟨q, hq, rfl⟩
      exact List.mem_cons_of_mem _ (ih hq)

theorem findSub_append_left {pat a : List Char} {p : Nat} (b : List Char)
    (h : findSub pat a = some p) (hfit : p + pat.length ≤ a.length) :
    findSub pat (a ++ b) = some p := by
  induction a generalizing p with
  | nil =>
    simp only [List.length_nil, Nat.le_zero, Nat.add_eq_zero] at hfit
    obtain ⟨rfl, hpat⟩ := hfit
    have hp : pat = [] := List.length_eq_zero.mp hpat
    subst hp
    cases b <;> simp [findSub, leadsWith]
  | cons c rest ih =>
    unfold findSub at h ⊢
    by_cases hl : leadsWith pat (c :: rest) = true
    · simp only [hl, if_pos] at h
      cases h
      have : leadsWith pat ((c :: rest) ++ b) = true := by
        rw [leadsWith_append_of_le b (by simpa using hfit)]
        exact hl
      simp [List.cons_append] at this ⊢
      simp [this]
    · simp only [hl, if_neg, Bool.false_eq_true, not_false_iff] at h
      rcases Option.map_eq_some'.mp h with ⟨q, hq, rfl⟩
      have hfit' : q + pat.length ≤ rest.length := by
        simp only [List.length_cons] at hfit; omega
      have hnot : leadsWith pat ((c :: rest) ++ b) ≠ true := by
        rw [leadsWith_append_of_le b (by simp only [List.length_cons]; omega)]
        exact hl
      simp only [List.cons_append] at hnot ⊢
      rw [if_neg hnot, ih hq hfit']
      rfl

theorem findSub_none_of_not_mem {pat t : List Char} {a : Char}
    (ha : a ∈ pat) (hna : a ∉ t) : findSub pat t = none := by
  cases h : findSub pat t with
  | none => rfl
  | some p => exact absurd (mem_of_findSub h ha) hna

theorem hasSub_cons (pat : List Char) (c : Char) (rest : List Char) :
    hasSub pat (c :: rest) = (leadsWith pat (c :: rest) || hasSub pat rest) := by
  unfold hasSub
  rw [findSub]
  by_cases h : leadsWith pat (c :: rest) = true
  · simp [h]
  · simp only [Bool.not_eq_true] at h
    simp [h]

/-! ### Lemmas about `replaceL` and the `strip_markers` stages -/

theorem replaceGo_id {pat : List Char} (rep : List Char) {t : List Char}
    (h : hasSub pat t = false) : replaceGo pat rep 0 t = t := by
  induction t with
  | nil => rfl
  | cons c rest ih =>
    rw [hasSub_cons] at h
    simp only [Bool.or_eq_false_iff] at h
    rw [replaceGo]
    simp only [h.1, Bool.false_eq_true, if_neg, not_false_iff]
    rw [ih h.2]

theorem replaceL_id {pat : List Char} (rep : List Char) {t : List Char}
    (h : hasSub pat t = false) : replaceL pat rep t = t :=
  replaceGo_id rep h

theorem mem_replaceGo {pat rep : List Char} {skip : Nat} {t : List Char}
    {a : Char} (h : a ∈ replaceGo pat rep skip t) : a ∈ t ∨ a ∈ rep := by
  induction t generalizing skip with
  | nil => simp [replaceGo] at h
  | cons c rest ih =>
    match skip with
    | skip + 1 =>
      rw [replaceGo] at h
      rcases ih h with h1 | h1
      · exact Or.inl (List.mem_cons_of_mem _ h1)
      · exact Or.inr h1
    | 0 =>
      rw [replaceGo] at h
      split at h
      · rcases List.mem_append.mp h with h1 | h1
        · exact Or.inr h1
        · rcases ih h1 with h2 | h2
          · exact Or.inl (List.mem_cons_of_mem _ h2)
          · exact Or.inr h2
      · rcases List.mem_cons.mp h with h1 | h1
        · exact Or.inl (h1 ▸ List.mem_cons_self _ _)
        · rcases ih h1 with h2 | h2
          · exact Or.inl (List.mem_cons_of_mem _ h2)
          · exact Or.inr h2

theorem mem_replaceL {pat rep t : List Char} {a : Char}
    (h : a ∈ replaceL pat rep t) : a ∈ t ∨ a ∈ rep :=
  mem_replaceGo h

theorem not_mem_replaceL {pat rep t : List Char} {a : Char}
    (ht : a ∉ t) (hr : a ∉ rep) : a ∉ replaceL pat rep t := by
  intro h
  rcases mem_replaceL h with h1 | h1
  · exact ht h1
  · exact hr h1

theorem replaceGo_succ (pat rep : List Char) (s : Nat) (c : Char) (t : List Char) :
    replaceGo pat rep (s + 1) (c :: t) = replaceGo pat rep s t := rfl

theorem doubleSpace_replace_length_le (t : List Char) (skip : Nat) :
    (replaceGo [' ', ' '] [' '] skip t).length ≤ t.length := by
  induction t generalizing skip with
  | nil => simp [replaceGo]
  | cons c rest ih =>
    match skip with
    | skip + 1 =>
      rw [replaceGo_succ]
      have := ih skip
      simp only [List.length_cons]
      omega
    | 0 =>
      rw [replaceGo]
      split
      · simp only [show ([' ', ' '] : List Char).length - 1 = 0 + 1 from rfl]
        cases rest with
        | nil => simp [replaceGo]
        | cons d r =>
          rw [replaceGo_succ]
          have h2 : (replaceGo [' ', ' '] [' '] 0 r).length ≤ (d :: r).length := by
            have h3 := ih (0 + 1)
            rw [replaceGo_succ] at h3
            exact h3
          simp only [List.length_cons] at h2
          simp only [List.length_append, List.length_cons, List.length_nil]
          omega
      · have := ih 0
        simp only [List.length_cons]
        omega

theorem doubleSpace_replace_length_lt {t : List Char}
    (h : hasSub [' ', ' '] t = true) :
    (replaceGo [' ', ' '] [' '] 0 t).length < t.length := by
  induction t with
  | nil => simp [hasSub, findSub, leadsWith] at h
  | cons c rest ih =>
    rw [hasSub_cons] at h
    rw [replaceGo]
    by_cases hl : leadsWith [' ', ' '] (c :: rest) = true
    · have hc : c = ' ' := by
        cases rest with
        | nil => simp [leadsWith] at hl
        | cons d r =>
          simp only [leadsWith, Bool.and_eq_true, beq_iff_eq] at hl
          exact hl.1.symm
      cases rest with
      | nil => simp [leadsWith] at hl
      | cons d r =>
        simp only [hl, if_pos,
          show ([' ', ' '] : List Char).length - 1 = 0 + 1 from rfl, replaceGo_succ]
        have h2 := doubleSpace_replace_length_le r 0
        simp only [List.length_append, List.length_cons, List.length_nil]
        omega
    · simp only [hl, Bool.false_eq_true, if_neg, not_false_iff]
      have hr : hasSub [' ', ' '] rest = true := by
        cases (Bool.or_eq_true _ _).mp h with
        | inl h1 => exact absurd h1 hl
        | inr h1 => exact h1
      have := ih hr
      simp only [List.length_cons]
      omega

theorem collapseAux_noDouble : ∀ (fuel : Nat) (t : List Char),
    t.length < fuel → hasSub [' ', ' '] (collapseAux fuel t) = false
  | 0, _, h => absurd h (Nat.not_lt_zero _)
  | fuel + 1, t, h => by
    rw [collapseAux]
    by_cases hd : hasSub [' ', ' '] t = true
    · simp only [hd, if_pos]
      have hlt := doubleSpace_replace_length_lt hd
      exact collapseAux_noDouble fuel _ (by
        change (replaceGo [' ', ' '] [' '] 0 t).length < fuel
        omega)
    · simp only [Bool.not_eq_true] at hd
      simp [hd]

theorem collapseSpaces_noDouble (t : List Char) :
    hasSub [' ', ' '] (collapseSpaces t) = false :=
  collapseAux_noDouble (t.length + 1) t (Nat.lt_succ_self _)

theorem collapseAux_id {fuel : Nat} {t : List Char}
    (h : hasSub [' ', ' '] t = false) : collapseAux fuel t = t := by
  cases fuel with
  | zero => rfl
  | succ fuel => rw [collapseAux]; simp [h]

theorem collapseSpaces_id {t : List Char}
    (h : hasSub [' ', ' '] t = false) : collapseSpaces t = t :=
  collapseAux_id h

theorem mem_collapseAux {fuel : Nat} {t : List Char} {a : Char}
    (h : a ∈ collapseAux fuel t) : a ∈ t := by
  induction fuel generalizing t with
  | zero => exact h
  | succ fuel ih =>
    rw [collapseAux] at h
    split at h
    next hd =>
      rcases mem_replaceGo (ih h) with h1 | h1
      · exact h1
      · simp only [List.mem_singleton] at h1
        subst h1
        -- the replacement only inserts a space, and the guard says the
        -- text contains "  ", so a space is already a character of `t`
        have hd' : (findSub [' ', ' '] t).isSome = true := hd
        rcases Option.isSome_iff_exists.mp hd' with ⟨p, hp⟩
        exact mem_of_findSub hp (by simp)
    · exact h

theorem spaceCommaCleanAux : ∀ (n : Nat) (u : List Char), u.length ≤ n →
    hasSub [' ', ' '] u = false →
    hasSub [' ', ' '] (replaceGo [' ', ','] [','] 0 u) = false ∧
    hasSub [' ', ','] (replaceGo [' ', ','] [','] 0 u) = false
  | _, [], _, _ => by decide
  | 0, c :: rest, hle, _ => by simp at hle
  | n + 1, c :: rest, hle, h => by
    rw [replaceGo]
    by_cases hl : leadsWith [' ', ','] (c :: rest) = true
    · cases rest with
      | nil => simp [leadsWith] at hl
      | cons d rest2 =>
        simp only [leadsWith, Bool.and_eq_true, beq_iff_eq] at hl
        obtain ⟨rfl, rfl, -⟩ := hl
        rw [if_pos (show leadsWith [' ', ','] (' ' :: ',' :: rest2) = true by
          simp [leadsWith])]
        simp only [show ([' ', ','] : List Char).length - 1 = 0 + 1 from rfl,
          replaceGo_succ, List.singleton_append]
        have h2 : hasSub [' ', ' '] rest2 = false := by
          rw [hasSub_cons] at h
          simp only [Bool.or_eq_false_iff] at h
          rw [hasSub_cons] at h
          simp only [Bool.or_eq_false_iff] at h
          exact h.2.2
        have hlen : rest2.length ≤ n := by
          simp only [List.length_cons] at hle
          omega
        obtain ⟨A, B⟩ := spaceCommaCleanAux n rest2 hlen h2
        constructor
        · rw [hasSub_cons]
          simp [leadsWith, A]
        · rw [hasSub_cons]
          simp [leadsWith, B]
    · simp only [hl, Bool.false_eq_true, if_neg, not_false_iff]
      have h2 : hasSub [' ', ' '] rest = false := by
        rw [hasSub_cons] at h
        simp only [Bool.or_eq_false_iff] at h
        exact h.2
      have hlen : rest.length ≤ n := by
        simp only [List.length_cons] at hle
        omega
      obtain ⟨A, B⟩ := spaceCommaCleanAux n rest hlen h2
      by_cases hc : c = ' '
      · subst hc
        cases rest with
        | nil =>
          constructor <;>
            (rw [hasSub_cons]; simp [leadsWith, replaceGo, hasSub, findSub])
        | cons d rest2 =>
          have hd1 : d ≠ ' ' := by
            intro hd
            subst hd
            rw [hasSub_cons] at h
            simp [leadsWith] at h
          have hd2 : d ≠ ',' := by
            intro hd
            subst hd
            simp [leadsWith] at hl
          have hV : replaceGo [' ', ','] [','] 0 (d :: rest2) =
              d :: replaceGo [' ', ','] [','] 0 rest2 := by
            rw [replaceGo]
            have : leadsWith [' ', ','] (d :: rest2) = false := by
              cases rest2 with
              | nil => simp [leadsWith]
              | cons e r3 => simp [leadsWith, Ne.symm hd1]
            simp [this]
          rw [hV]
          rw [hV] at A B
          constructor
          · rw [hasSub_cons]
            simp [leadsWith, Ne.symm hd1, A]
          · rw [hasSub_cons]
            simp [leadsWith, Ne.symm hd2, A, B]
      · have hc' : ¬(' ' = c) := fun hcc => hc hcc.symm
        constructor
        · rw [hasSub_cons]
          cases hW : replaceGo [' ', ','] [','] 0 rest with
          | nil => simp [leadsWith, hW ▸ A]
          | cons w ws =>
            rw [hW] at A
            simp [leadsWith, hc', A]
        · rw [hasSub_cons]
          cases hW : replaceGo [' ', ','] [','] 0 rest with
          | nil => simp [leadsWith, hW ▸ B]
          | cons w ws =>
            rw [hW] at B
            simp [leadsWith, hc', B]

theorem spaceCommaClean {u : List Char} (h : hasSub [' ', ' '] u = false) :
    hasSub [' ', ' '] (replaceL [' ', ','] [','] u) = false ∧
    hasSub [' ', ','] (replaceL [' ', ','] [','] u) = false :=
  spaceCommaCleanAux u.length u le_rfl h

theorem mem_subSupGo {skip : Nat} {t : List Char} {a : Char}
    (h : a ∈ subSupGo skip t) : a ∈ t := by
  induction t generalizing skip with
  | nil => simp [subSupGo] at h
  | cons c rest ih =>
    match skip with
    | skip + 1 =>
      rw [subSupGo] at h
      exact List.mem_cons_of_mem _ (ih h)
    | 0 =>
      rw [subSupGo] at h
      split at h
      · exact List.mem_cons_of_mem _ (ih h)
      · rcases List.mem_cons.mp h with h1 | h1
        · exact h1 ▸ List.mem_cons_self _ _
        · exact List.mem_cons_of_mem _ (ih h1)

theorem matchSup_none_of_head {c : Char} (rest : List Char) (h : c ≠ '<') :
    matchSup (c :: rest) = none := by
  have h' : ¬('<' = c) := fun hcc => h hcc.symm
  have hlw : leadsWith (supTag27 ++ [' ']) (c :: rest) = false := by
    have he : supTag27 ++ [' '] =
        '<' :: ("sup style=\"font-size:60%\"> ".toList) := rfl
    rw [he]
    simp [leadsWith, h']
  unfold matchSup dropLit
  simp [hlw]

theorem subSup_id {t : List Char} (h : '<' ∉ t) : subSup t = t := by
  unfold subSup
  induction t with
  | nil => rfl
  | cons c rest ih =>
    rw [subSupGo, matchSup_none_of_head rest (fun hc => h (hc ▸ List.mem_cons_self _ _))]
    rw [ih (fun hm => h (List.mem_cons_of_mem _ hm))]

theorem containsSup_false_subSup_id {t : List Char}
    (h : containsSup t = false) : subSup t = t := by
  unfold subSup
  induction t with
  | nil => rfl
  | cons c rest ih =>
    rw [containsSup] at h
    simp only [Bool.or_eq_false_iff] at h
    rw [subSupGo]
    cases hm : matchSup (c :: rest) with
    | some s => rw [hm] at h; simp at h
    | none => rw [ih h.2]

theorem hasSub_singleton {a : Char} {t : List Char} :
    hasSub [a] t = true ↔ a ∈ t := by
  induction t with
  | nil => simp [hasSub, findSub, leadsWith]
  | cons c rest ih =>
    rw [hasSub_cons]
    simp [leadsWith, ih, List.mem_cons]

theorem hasSub_singleton_false {a : Char} {t : List Char} (h : a ∉ t) :
    hasSub [a] t = false := by
  cases hh : hasSub [a] t with
  | false => rfl
  | true => exact absurd (hasSub_singleton.mp hh) h

theorem not_mem_replace_single (a : Char) (t : List Char) :
    a ∉ replaceL [a] [] t := by
  unfold replaceL
  induction t with
  | nil => simp [replaceGo]
  | cons c rest ih =>
    rw [replaceGo]
    by_cases hl : leadsWith [a] (c :: rest) = true
    · simp only [hl, if_pos, List.nil_append,
        show ([a] : List Char).length - 1 = 0 from rfl]
      exact ih
    · simp only [hl, Bool.false_eq_true, if_neg, not_false_iff]
      have hac : ¬(a = c) := by
        intro hac
        subst hac
        simp [leadsWith] at hl
      intro hm
      rcases List.mem_cons.mp hm with h1 | h1
      · exact hac h1
      · exact ih h1

theorem containsSup_false_of_no_lt {t : List Char} (h : '<' ∉ t) :
    containsSup t = false := by
  induction t with
  | nil => rfl
  | cons c rest ih =>
    rw [containsSup,
      matchSup_none_of_head rest (fun hc => h (hc ▸ List.mem_cons_self _ _))]
    simp [ih (fun hm => h (List.mem_cons_of_mem _ hm))]

theorem strip_markers_id_clean {T : List Char}
    (h1 : '…' ∉ T) (h2 : '[' ∉ T) (h3 : ']' ∉ T)
    (h4 : containsSup T = false)
    (h5 : hasSub [' ', ' '] T = false)
    (h6 : hasSub [' ', ','] T = false) :
    strip_markers T = T := by
  show replaceL [' ', ','] [',']
      (collapseSpaces (subSup (replaceL [']'] []
        (replaceL ['['] [] (replaceL ['…'] [] T))))) = T
  rw [replaceL_id _ (hasSub_singleton_false h1),
    replaceL_id _ (hasSub_singleton_false h2),
    replaceL_id _ (hasSub_singleton_false h3),
    containsSup_false_subSup_id h4,
    collapseSpaces_id h5,
    replaceL_id _ h6]

/-- C4 (amended) — on text free of markers (no brackets, no ellipsis, no
superscript annotation) that also contains no double space and no
space-before-comma, `strip_markers` is the identity (and in particular does
not fail).  The claim as frozen omits the last two conditions and is refuted
by `strip_markers_changes_marker_free_text`. -/
theorem strip_markers_identity_marker_free {T : List Char}
    (h1 : '…' ∉ T) (h2 : '[' ∉ T) (h3 : ']' ∉ T)
    (h4 : containsSup T = false)
    (h5 : hasSub [' ', ' '] T = false)
    (h6 : hasSub [' ', ','] T = false) :
    strip_markers T = T :=
  strip_markers_id_clean h1 h2 h3 h4 h5 h6

/-- C4: counterexample — `"a  b"` contains no marker of any kind, yet
`strip_markers` changes it (the space collapse), so `strip` is not the
identity on all marker-free text. -/
theorem strip_markers_changes_marker_free_text :
    ('…' ∉ "a  b".toList) ∧ ('[' ∉ "a  b".toList) ∧ (']' ∉ "a  b".toList) ∧
    containsSup "a  b".toList = false ∧
    strip_markers "a  b".toList ≠ "a  b".toList := by
  decide

/-- C4 (witness): the amended identity at a concrete marker-free input. -/
theorem strip_markers_identity_marker_free_witness :
    strip_markers "Hann kom, og hann sá".toList = "Hann kom, og hann sá".toList :=
  strip_markers_identity_marker_free (by decide) (by decide) (by decide)
    (by decide) (by decide) (by decide)

theorem mem_subSup {t : List Char} {a : Char} (h : a ∈ subSup t) : a ∈ t :=
  mem_subSupGo h

theorem mem_collapseSpaces {t : List Char} {a : Char}
    (h : a ∈ collapseSpaces t) : a ∈ t :=
  mem_collapseAux h

/-- C3 (amended): `strip_markers` is idempotent on every text that contains
no `'<'` character (so no superscript markup at all).  The unrestricted claim
is refuted by `strip_markers_not_idempotent_example`: deleting a superscript
annotation or collapsing spaces can assemble a fresh annotation that only a
second pass removes. -/
theorem strip_markers_idempotent_no_lt {x : List Char} (h : '<' ∉ x) :
    strip_markers (strip_markers x) = strip_markers x := by
  have m1 : '…' ∉ replaceL ['…'] [] x := not_mem_replace_single _ _
  have m2 : '…' ∉ replaceL ['['] [] (replaceL ['…'] [] x) :=
    not_mem_replaceL m1 (by simp)
  have m3 : '…' ∉ replaceL [']'] [] (replaceL ['['] [] (replaceL ['…'] [] x)) :=
    not_mem_replaceL m2 (by simp)
  have m4 : '…' ∉ subSup (replaceL [']'] [] (replaceL ['['] []
      (replaceL ['…'] [] x))) := fun hm => m3 (mem_subSup hm)
  have m5 : '…' ∉ collapseSpaces (subSup (replaceL [']'] [] (replaceL ['['] []
      (replaceL ['…'] [] x)))) := fun hm => m4 (mem_collapseSpaces hm)
  have m6 : '…' ∉ replaceL [' ', ','] [','] (collapseSpaces (subSup
      (replaceL [']'] [] (replaceL ['['] [] (replaceL ['…'] [] x))))) :=
    not_mem_replaceL m5 (by simp)
  have k2 : '[' ∉ replaceL ['['] [] (replaceL ['…'] [] x) :=
    not_mem_replace_single _ _
  have k3 : '[' ∉ replaceL [']'] [] (replaceL ['['] [] (replaceL ['…'] [] x)) :=
    not_mem_replaceL k2 (by simp)
  have k4 : '[' ∉ subSup (replaceL [']'] [] (replaceL ['['] []
      (replaceL ['…'] [] x))) := fun hm => k3 (mem_subSup hm)
  have k5 : '[' ∉ collapseSpaces (subSup (replaceL [']'] [] (replaceL ['['] []
      (replaceL ['…'] [] x)))) := fun hm => k4 (mem_collapseSpaces hm)
  have k6 : '[' ∉ replaceL [' ', ','] [','] (collapseSpaces (subSup
      (replaceL [']'] [] (replaceL ['['] [] (replaceL ['…'] [] x))))) :=
    not_mem_replaceL k5 (by simp)
  have n3 : ']' ∉ replaceL [']'] [] (replaceL ['['] [] (replaceL ['…'] [] x)) :=
    not_mem_replace_single _ _
  have n4 : ']' ∉ subSup (replaceL [']'] [] (replaceL ['['] []
      (replaceL ['…'] [] x))) := fun hm => n3 (mem_subSup hm)
  have n5 : ']' ∉ collapseSpaces (subSup (replaceL [']'] [] (replaceL ['['] []
      (replaceL ['…'] [] x)))) := fun hm => n4 (mem_collapseSpaces hm)
  have n6 : ']' ∉ replaceL [' ', ','] [','] (collapseSpaces (subSup
      (replaceL [']'] [] (replaceL ['['] [] (replaceL ['…'] [] x))))) :=
    not_mem_replaceL n5 (by simp)
  have l1 : '<' ∉ replaceL ['…'] [] x := not_mem_replaceL h (by simp)
  have l2 : '<' ∉ replaceL ['['] [] (replaceL ['…'] [] x) :=
    not_mem_replaceL l1 (by simp)
  have l3 : '<' ∉ replaceL [']'] [] (replaceL ['['] [] (replaceL ['…'] [] x)) :=
    not_mem_replaceL l2 (by simp)
  have l4 : '<' ∉ subSup (replaceL [']'] [] (replaceL ['['] []
      (replaceL ['…'] [] x))) := fun hm => l3 (mem_subSup hm)
  have l5 : '<' ∉ collapseSpaces (subSup (replaceL [']'] [] (replaceL ['['] []
      (replaceL ['…'] [] x)))) := fun hm => l4 (mem_collapseSpaces hm)
  have l6 : '<' ∉ replaceL [' ', ','] [','] (collapseSpaces (subSup
      (replaceL [']'] [] (replaceL ['['] [] (replaceL ['…'] [] x))))) :=
    not_mem_replaceL l5 (by simp)
  have hdd : hasSub [' ', ' '] (collapseSpaces (subSup (replaceL [']'] []
      (replaceL ['['] [] (replaceL ['…'] [] x))))) = false :=
    collapseSpaces_noDouble _
  obtain ⟨d1, d2⟩ := spaceCommaClean hdd
  exact strip_markers_id_clean m6 k6 n6 (containsSup_false_of_no_lt l6) d1 d2

/-- C3: counterexample — on
`'<sup style="font-size:60%">  1) </sup>'` (note the double space) the first
`strip_markers` pass collapses the spaces, assembling a complete superscript
annotation that only a second pass deletes, so
`strip(strip(x)) ≠ strip(x)`. -/
theorem strip_markers_not_idempotent_example :
    strip_markers (strip_markers
        "<sup style=\"font-size:60%\">  1) </sup>".toList) ≠
      strip_markers "<sup style=\"font-size:60%\">  1) </sup>".toList := by
  decide

/-- C3 (witness): idempotence at a concrete `'<'`-free input. -/
theorem strip_markers_idempotent_no_lt_witness :
    strip_markers (strip_markers "a  b, [c]…".toList) =
      strip_markers "a  b, [c]…".toList :=
  strip_markers_idempotent_no_lt (by decide)

/-! ### Claims about `separate_sentences` -/

/-- C2 (amended): with the code's recognized abbreviation list — which
holds the lowercase `'sbr.'`, not `'Sbr.'` — the cross-reference chain input
written with lowercase `sbr.` comes back as exactly one sentence equal to the
whole input.  On the claim's capitalized input the abbreviation is not
recognized and the text splits after `"Sbr."`
(`separate_sentences_capital_sbr_splits`). -/
theorem separate_sentences_lowercase_sbr_single :
    separate_sentences "sbr. 3. mgr. 4. tölul. 1. gr. skulu menn fara.".toList =
      some ["sbr. 3. mgr. 4. tölul. 1. gr. skulu menn fara.".toList] := by
  decide

/-- C2: counterexample — on the claim's exact input
`"Sbr. 3. mgr. 4. tölul. 1. gr. skulu menn fara."` the function returns two
sentences, not one: `'Sbr.'` (capitalized) is not in `recognized_shorts`
(which holds `'sbr.'`), the chunk `"Sbr"` is not a reference shorthand, and
the next chunk `" 3"` starts with a space before the digit, so every
keep-together rule misses and the sentence splits after `"Sbr."`. -/
theorem separate_sentences_capital_sbr_splits :
    separate_sentences "Sbr. 3. mgr. 4. tölul. 1. gr. skulu menn fara.".toList =
        some ["Sbr.".toList,
          "3. mgr. 4. tölul. 1. gr. skulu menn fara.".toList] ∧
      separate_sentences "Sbr. 3. mgr. 4. tölul. 1. gr. skulu menn fara.".toList ≠
        some ["Sbr. 3. mgr. 4. tölul. 1. gr. skulu menn fara.".toList] := by
  constructor
  · decide
  · decide

/-- C10: the dot-protection placeholder `'[DOT]'` collides with ordinary
input text — on `"ab[DOT]cd."`, which contains the literal placeholder (and
no abbreviation or table), the returned sentence is `"ab.cd."`: the
placeholder was decoded into a dot, and the output sentence is not a
substring of the input. -/
theorem separate_sentences_dot_token_collision :
    hasSub dotTok "ab[DOT]cd.".toList = true ∧
      separate_sentences "ab[DOT]cd.".toList = some ["ab.cd.".toList] ∧
      hasSub "ab.cd.".toList "ab[DOT]cd.".toList = false := by
  refine ⟨by decide, by decide, by decide⟩

/-! ### Claims about `next_footnote_sup` -/

theorem findSub_append_self {pat : List Char} (hp : pat ≠ []) (z : List Char) :
    findSub pat (pat ++ z) = some 0 := by
  cases pat with
  | nil => exact absurd rfl hp
  | cons a as =>
    show findSub (a :: as) (a :: (as ++ z)) = some 0
    unfold findSub
    rw [if_pos]
    exact leadsWith_append_self (a :: as) z

/-- C5 (amended): when neither the node's text from the cursor onward nor
the next sibling's text contains the superscript opening tag, and the
sibling's text is at most 26 characters long, `next_footnote_sup` does not
fail: it silently returns `some ""` — the empty string produced by slicing
the sibling's text from position `(-1) + 27 = 26`.  The frozen claim (a
distinct lookup failure, never a silent empty value) is refuted by
`next_footnote_returns_empty_example`. -/
theorem next_footnote_silent_empty {e : FElem} {cursor : Nat} {nt : List Char}
    (hn : e.nextText = some nt)
    (h1 : findSub supTag27 (e.text.drop cursor) = none)
    (h2 : findSub supTag27 nt = none)
    (h3 : nt.length ≤ 26) :
    next_footnote_sup e cursor = some [] := by
  unfold next_footnote_sup
  have hg : pyFindFrom supTag27 e.text cursor = -1 := by
    unfold pyFindFrom
    rw [h1]
  rw [hg, if_neg (show ¬((-1 : Int) > -1) from by omega), hn]
  show some (pyStripClose (pyStripWs (pySlice nt
      (pyFindFrom supTag27 nt 0 + 27) (pyFindFrom supEndTag nt 0)))) = some []
  have hs : pyFindFrom supTag27 nt 0 = -1 := by
    unfold pyFindFrom
    rw [List.drop_zero, h2]
  rw [hs]
  have hsl : pySlice nt ((-1 : Int) + 27) (pyFindFrom supEndTag nt 0) = [] := by
    unfold pySlice
    apply List.drop_eq_nil_of_le
    have h26 : pyIdx nt.length ((-1 : Int) + 27) = nt.length := by
      unfold pyIdx
      rw [if_neg (by omega)]
      have : ((-1 : Int) + 27).toNat = 26 := by omega
      rw [this]
      omega
    rw [h26]
    simp [List.length_take]
  rw [hsl]
  rfl

/-- C5: counterexample — node text `"abc"`, sibling text `"xyz"`, cursor 0:
no superscript annotation exists anywhere, yet `next_footnote_sup` returns
the empty string (`some ""`), not a lookup failure. -/
theorem next_footnote_returns_empty_example :
    next_footnote_sup ⟨"abc".toList, some "xyz".toList⟩ 0 = some [] := by
  decide

/-- C5 (witness): the amended statement applied at the concrete
annotation-free node/sibling pair. -/
theorem next_footnote_silent_empty_witness :
    next_footnote_sup ⟨"abcd".toList, some "wxyz".toList⟩ 1 = some [] :=
  next_footnote_silent_empty rfl (by decide) (by decide) (by decide)

/-- C6: when the node's text has no superscript annotation from the cursor
onward and the next sibling's text starts with
`'<sup style="font-size:60%"> 7) </sup>'`, `next_footnote_sup` scans the
sibling's text from its start (ignoring the cursor) and returns `"7"`,
whatever follows the annotation in the sibling and whatever the node's text
or the cursor are. -/
theorem next_footnote_sibling_seven (t : List Char) (cursor : Nat)
    (rest : List Char) (h1 : findSub supTag27 (t.drop cursor) = none) :
    next_footnote_sup
        ⟨t, some ((supTag27 ++ " 7) </sup>".toList) ++ rest)⟩ cursor =
      some ['7'] := by
  unfold next_footnote_sup
  have hg : pyFindFrom supTag27 t cursor = -1 := by
    unfold pyFindFrom
    rw [h1]
  rw [show (FElem.mk t (some ((supTag27 ++ " 7) </sup>".toList) ++ rest))).text = t
    from rfl, hg, if_neg (show ¬((-1 : Int) > -1) from by omega)]
  show some (pyStripClose (pyStripWs (pySlice
      ((supTag27 ++ " 7) </sup>".toList) ++ rest)
      (pyFindFrom supTag27 ((supTag27 ++ " 7) </sup>".toList) ++ rest) 0 + 27)
      (pyFindFrom supEndTag ((supTag27 ++ " 7) </sup>".toList) ++ rest) 0)))) =
    some ['7']
  have hlen : ((supTag27 ++ " 7) </sup>".toList) ++ rest).length =
      37 + rest.length := by
    simp only [List.length_append, show supTag27.length = 27 from by decide,
      show (" 7) </sup>".toList).length = 10 from by decide]
  have hstart : pyFindFrom supTag27 ((supTag27 ++ " 7) </sup>".toList) ++ rest) 0 = 0 := by
    unfold pyFindFrom
    rw [List.drop_zero, List.append_assoc,
      findSub_append_self (by decide) (" 7) </sup>".toList ++ rest)]
    rfl
  have hend : pyFindFrom supEndTag ((supTag27 ++ " 7) </sup>".toList) ++ rest) 0 = 31 := by
    unfold pyFindFrom
    rw [List.drop_zero,
      findSub_append_left rest
        (show findSub supEndTag (supTag27 ++ " 7) </sup>".toList) = some 31 by decide)
        (by decide)]
    rfl
  rw [hstart, hend]
  have hsl : pySlice ((supTag27 ++ " 7) </sup>".toList) ++ rest)
      ((0 : Int) + 27) 31 = [' ', '7', ')', ' '] := by
    unfold pySlice
    have hb : pyIdx ((supTag27 ++ " 7) </sup>".toList) ++ rest).length (31 : Int) = 31 := by
      unfold pyIdx
      rw [if_neg (by omega), hlen]
      have : ((31 : Int)).toNat = 31 := rfl
      rw [this]
      omega
    have ha : pyIdx ((supTag27 ++ " 7) </sup>".toList) ++ rest).length
        ((0 : Int) + 27) = 27 := by
      unfold pyIdx
      rw [if_neg (by omega), hlen]
      have : ((0 : Int) + 27).toNat = 27 := rfl
      rw [this]
      omega
    rw [ha, hb, List.take_append_eq_append_take,
      show (31 - (supTag27 ++ " 7) </sup>".toList).length) = 0 by decide]
    simp only [List.take_zero, List.append_nil]
    decide
  rw [hsl]
  decide

/-- C6 (witness): the sibling-lookup at a concrete node whose text lacks an
annotation, with nothing after the annotation in the sibling. -/
theorem next_footnote_sibling_seven_witness :
    next_footnote_sup
        ⟨"abc".toList, some ((supTag27 ++ " 7) </sup>".toList) ++ [])⟩ 0 =
      some ['7'] :=
  next_footnote_sibling_seven "abc".toList 0 [] (by decide)

/-! ### Claims about `generate_ancestors` -/

theorem ancLoop_eq_of_contains {l : List PyNode} {parent : PyNode}
    (hc : containsId l parent.id = true)
    (hnr : ∀ a ∈ takeThrough parent.id l, a.nr.isSome = true) :
    ancLoop l parent = some ((takeThrough parent.id l).reverse.map
      (fun a => (a.tag, a.nr.getD ""))) := by
  induction l with
  | nil => simp [containsId] at hc
  | cons a rest ih =>
    by_cases hid : a.id = parent.id
    · have ha : a.nr.isSome = true := by
        apply hnr
        rw [takeThrough, if_pos hid]
        exact List.mem_singleton_self _
      rcases Option.isSome_iff_exists.mp ha with ⟨v, hv⟩
      simp [ancLoop, hv, hid, takeThrough]
    · have hc' : containsId rest parent.id = true := by
        unfold containsId at hc ⊢
        simp only [List.any_cons, Bool.or_eq_true, decide_eq_true_eq] at hc
        rcases hc with h1 | h1
        · exact absurd h1 hid
        · exact h1
      have hnr' : ∀ b ∈ takeThrough parent.id rest, b.nr.isSome = true := by
        intro b hb
        apply hnr
        rw [takeThrough, if_neg hid]
        exact List.mem_cons_of_mem _ hb
      have ha : a.nr.isSome = true := by
        apply hnr
        rw [takeThrough, if_neg hid]
        exact List.mem_cons_self _ _
      rcases Option.isSome_iff_exists.mp ha with ⟨v, hv⟩
      simp [ancLoop, hv, hid, takeThrough, ih hc' hnr']

theorem ancLoop_eq_of_no_boundary {l : List PyNode} {parent : PyNode}
    (hc : containsId l parent.id = false)
    (hnr : ∀ a ∈ l, a.nr.isSome = true) :
    ancLoop l parent = some (l.reverse.map (fun a => (a.tag, a.nr.getD ""))) := by
  induction l with
  | nil => rfl
  | cons a rest ih =>
    unfold containsId at hc
    simp only [List.any_cons, Bool.or_eq_false_iff, decide_eq_false_iff_not] at hc
    have ha : a.nr.isSome = true := hnr a (List.mem_cons_self _ _)
    rcases Option.isSome_iff_exists.mp ha with ⟨v, hv⟩
    simp [ancLoop, hv, hc.1,
      ih hc.2 (fun b hb => hnr b (List.mem_cons_of_mem _ hb))]

/-- C7: with a boundary that is a true ancestor of the node and every
visited ancestor carrying a `nr` attribute, `build_path` returns the path
consisting of the visited ancestors' `(tag, nr)` pairs rootward-first —
starting at the boundary ancestor inclusive, never anything above it —
followed by the terminal pair for the node itself: `(tag, none)` (the
attribute value dropped) when the node carries `nr`, else the node's
1-based ordinal among its siblings. -/
theorem generate_ancestors_path {elem : TElem} {parent : PyNode}
    (hc : containsId elem.ancestors parent.id = true)
    (hnr : ∀ a ∈ takeThrough parent.id elem.ancestors, a.nr.isSome = true) :
    generate_ancestors elem parent = some
      ((takeThrough parent.id elem.ancestors).reverse.map
          (fun a => (a.tag, a.nr)) ++
        [match elem.node.nr with
         | some _ => (elem.node.tag, none)
         | none => (elem.node.tag,
             some (toString (order_among_siblings elem.siblings elem.node)))]) := by
  unfold generate_ancestors
  rw [ancLoop_eq_of_contains hc hnr]
  have hmap : ((takeThrough parent.id elem.ancestors).reverse.map
        (fun a => (a.tag, a.nr.getD ""))).map (fun e => (e.1, some e.2)) =
      (takeThrough parent.id elem.ancestors).reverse.map
        (fun a => (a.tag, a.nr)) := by
    rw [List.map_map]
    apply List.map_congr_left
    intro a ha
    have := hnr a (List.mem_reverse.mp ha)
    rcases Option.isSome_iff_exists.mp this with ⟨v, hv⟩
    simp [hv]
  cases hnode : elem.node.nr with
  | some v =>
    simp only [hmap]
  | none =>
    simp only [hmap]

/-- C7 (witness): the spec's example — `art[nr=5] > subart[nr=1] > sen`
(`sen` without `nr`, first child), boundary `art` — yields
`[("art", "5"), ("subart", "1"), ("sen", "1")]`, the terminal entry being
the sibling ordinal. -/
theorem generate_ancestors_path_witness :
    generate_ancestors
        ⟨⟨3, "sen", none⟩,
          [⟨2, "subart", some "1"⟩, ⟨1, "art", some "5"⟩],
          [⟨3, "sen", none⟩]⟩
        ⟨1, "art", some "5"⟩ =
      some [("art", some "5"), ("subart", some "1"), ("sen", some "1")] := by
  rw [generate_ancestors_path (by decide) (by decide)]
  rfl

/-- C8 (amended): when the boundary is not an ancestor of the node (and the
ancestors all carry `nr`), `build_path` does not fail at all — the loop's
break never fires, so it silently walks to the root and returns the pairs of
every ancestor, rootward-first, followed by the node's terminal pair.  The
frozen claim (a not-an-ancestor error) is refuted by
`generate_ancestors_accepts_non_ancestor`. -/
theorem generate_ancestors_no_boundary {elem : TElem} {parent : PyNode}
    (hc : containsId elem.ancestors parent.id = false)
    (hnr : ∀ a ∈ elem.ancestors, a.nr.isSome = true) :
    generate_ancestors elem parent = some
      (elem.ancestors.reverse.map (fun a => (a.tag, a.nr)) ++
        [match elem.node.nr with
         | some _ => (elem.node.tag, none)
         | none => (elem.node.tag,
             some (toString (order_among_siblings elem.siblings elem.node)))]) := by
  unfold generate_ancestors
  rw [ancLoop_eq_of_no_boundary hc hnr]
  have hmap : (elem.ancestors.reverse.map
        (fun a => (a.tag, a.nr.getD ""))).map (fun e => (e.1, some e.2)) =
      elem.ancestors.reverse.map (fun a => (a.tag, a.nr)) := by
    rw [List.map_map]
    apply List.map_congr_left
    intro a ha
    have := hnr a (List.mem_reverse.mp ha)
    rcases Option.isSome_iff_exists.mp this with ⟨v, hv⟩
    simp [hv]
  cases hnode : elem.node.nr with
  | some v =>
    simp only [hmap]
  | none =>
    simp only [hmap]

/-- C8: counterexample — a boundary (id 99) that is not an ancestor of the
node: `generate_ancestors` raises no error and returns a full path (all the
way past the intended boundary, to the root), contradicting the claimed
not-an-ancestor failure. -/
theorem generate_ancestors_accepts_non_ancestor :
    generate_ancestors
        ⟨⟨3, "sen", some "9"⟩, [⟨2, "p", some "1"⟩], [⟨3, "sen", some "9"⟩]⟩
        ⟨99, "bogus", none⟩ =
      some [("p", some "1"), ("sen", none)] ∧
    generate_ancestors
        ⟨⟨3, "sen", some "9"⟩, [⟨2, "p", some "1"⟩], [⟨3, "sen", some "9"⟩]⟩
        ⟨99, "bogus", none⟩ ≠ none := by
  refine ⟨by decide, by decide⟩

/-- C8 (witness): the amended walk-to-the-root behavior at a concrete
two-ancestor tree whose boundary id matches nothing. -/
theorem generate_ancestors_no_boundary_witness :
    generate_ancestors
        ⟨⟨4, "sen", none⟩,
          [⟨2, "subart", some "1"⟩, ⟨1, "art", some "5"⟩],
          [⟨4, "sen", none⟩]⟩
        ⟨77, "chapter", none⟩ =
      some [("art", some "5"), ("subart", some "1"), ("sen", some "1")] := by
  rw [generate_ancestors_no_boundary (by decide) (by decide)]
  rfl

/-! ### C1: the `regexify_markers` contract -/

theorem plain_ne {c : Char} (h : c.isAlphanum = true ∨ c = ' ') {d : Char}
    (hd : d.isAlphanum = false) (hd2 : d ≠ ' ') : c ≠ d := by
  intro hcd
  subst hcd
  rcases h with h1 | h1
  · rw [h1] at hd; cases hd
  · exact hd2 h1

theorem sub1_id {t : List Char} (h : '[' ∉ t) : sub1 t = t := by
  induction t with
  | nil => rfl
  | cons c rest ih =>
    have hc : c ≠ '[' := fun hcc => h (hcc ▸ List.mem_cons_self _ _)
    have ih' := ih (fun hm => h (List.mem_cons_of_mem _ hm))
    rw [sub1.eq_def]
    split <;> rename_i heq <;>
      first
      | exact absurd heq (List.cons_ne_nil c rest)
      | exact absurd (List.cons_eq_cons.mp heq).1 hc
      | (obtain ⟨h1, h2⟩ := List.cons_eq_cons.mp heq
         subst h1
         subst h2
         rw [ih'])

theorem matchTwo_none_of_head {c : Char} (rest : List Char) (h : c ≠ ']') :
    matchTwo (c :: rest) = none := by
  have h' : ¬(']' = c) := fun hcc => h hcc.symm
  have hlw : leadsWith [']'] (c :: rest) = false := by
    simp [leadsWith, h']
  unfold matchTwo dropLit
  simp [hlw]

theorem sub2_id {t : List Char} (h : ']' ∉ t) : sub2 t = t := by
  unfold sub2
  induction t with
  | nil => rfl
  | cons c rest ih =>
    rw [sub2Go,
      matchTwo_none_of_head rest (fun hc => h (hc ▸ List.mem_cons_self _ _)),
      ih (fun hm => h (List.mem_cons_of_mem _ hm))]

theorem matchThree_none_of_head {c : Char} (rest : List Char) (h : c ≠ '…') :
    matchThree (c :: rest) = none := by
  have h' : ¬('…' = c) := fun hcc => h hcc.symm
  have hlw : leadsWith ('…' :: ' ' :: (supTag27 ++ [' '])) (c :: rest) = false := by
    simp [leadsWith, h']
  unfold matchThree
  rw [show dropLit ('…' :: ' ' :: supTag27 ++ [' ']) (c :: rest) = none from by
    unfold dropLit
    simp only [List.cons_append, List.append_eq]
    simp [hlw]]

theorem sub3_id {t : List Char} (h : '…' ∉ t) : sub3 t = t := by
  unfold sub3
  induction t with
  | nil => rfl
  | cons c rest ih =>
    rw [sub3Go,
      matchThree_none_of_head rest (fun hc => h (hc ▸ List.mem_cons_self _ _)),
      ih (fun hm => h (List.mem_cons_of_mem _ hm))]

theorem hasSub_false_of_pat_mem_not_mem {pat t : List Char} {a : Char}
    (ha : a ∈ pat) (hna : a ∉ t) : hasSub pat t = false := by
  unfold hasSub
  rw [findSub_none_of_not_mem ha hna]
  rfl

/-- On text whose characters are all alphanumeric or a space,
`regexify_markers` is the identity: no marker pattern and no `' ,'` occurs. -/
theorem regexify_markers_plain {T : List Char}
    (h : ∀ c ∈ T, c.isAlphanum = true ∨ c = ' ') : regexify_markers T = T := by
  have hbr : '[' ∉ T := fun hm => plain_ne (h _ hm) (by decide) (by decide) rfl
  have hbc : ']' ∉ T := fun hm => plain_ne (h _ hm) (by decide) (by decide) rfl
  have hel : '…' ∉ T := fun hm => plain_ne (h _ hm) (by decide) (by decide) rfl
  have hcm : ',' ∉ T := fun hm => plain_ne (h _ hm) (by decide) (by decide) rfl
  show replaceL [' ', ','] [' ', '?', ','] (sub3 (sub2 (sub1 T))) = T
  rw [sub1_id hbr, sub2_id hbc, sub3_id hel,
    replaceL_id _ (hasSub_false_of_pat_mem_not_mem (by simp) hcm)]

theorem foldl_deriv_emp_seq (s : List Char) (r : RE) :
    s.foldl RE.deriv (RE.seq RE.emp r) = RE.seq RE.emp r := by
  induction s with
  | nil => rfl
  | cons c s' ih =>
    rw [List.foldl_cons, show RE.deriv (RE.seq RE.emp r) c = RE.seq RE.emp r from rfl, ih]

theorem foldl_deriv_alt (s : List Char) (a b : RE) :
    s.foldl RE.deriv (RE.alt a b) =
      RE.alt (s.foldl RE.deriv a) (s.foldl RE.deriv b) := by
  induction s generalizing a b with
  | nil => rfl
  | cons c s' ih =>
    rw [List.foldl_cons, show RE.deriv (RE.alt a b) c = RE.alt (a.deriv c) (b.deriv c)
      from rfl, ih, List.foldl_cons, List.foldl_cons]

theorem rmatch_seq_eps (s : List Char) (r : RE) :
    rmatch (RE.seq RE.eps r) s = rmatch r s := by
  cases s with
  | nil => simp [rmatch, RE.nullable]
  | cons c s' =>
    unfold rmatch
    rw [List.foldl_cons, List.foldl_cons,
      show RE.deriv (RE.seq RE.eps r) c =
        RE.alt (RE.seq RE.emp r) (r.deriv c) from rfl,
      foldl_deriv_alt, foldl_deriv_emp_seq]
    simp [RE.nullable]

theorem litRE_self (T : List Char) : rmatch (litRE T) T = true := by
  induction T with
  | nil => rfl
  | cons c T' ih =>
    show rmatch (RE.seq (RE.ch c) (litRE T')) (c :: T') = true
    unfold rmatch
    rw [List.foldl_cons,
      show RE.deriv (RE.seq (RE.ch c) (litRE T')) c =
        RE.seq (RE.ch c |>.deriv c) (litRE T') from rfl,
      show (RE.ch c).deriv c = RE.eps from by simp [RE.deriv]]
    exact (rmatch_seq_eps T' (litRE T')).trans ih

theorem plain_not_special {c : Char} (hc : c.isAlphanum = true ∨ c = ' ') :
    specialChar c = false := by
  rcases hc with h | h
  · by_contra hb
    rw [Bool.not_eq_false] at hb
    unfold specialChar at hb
    simp only [Bool.or_eq_true, decide_eq_true_eq] at hb
    rcases hb with ((((((((((e|e)|e)|e)|e)|e)|e)|e)|e)|e)|e) <;>
      (subst e; exact absurd h (by decide))
  · subst h; decide

theorem applyPost_nil (a : RE) : applyPost a [] = some (a, []) := rfl

theorem applyPost_cons_plain (a : RE) (d : Char) (r : List Char)
    (hd : d.isAlphanum = true ∨ d = ' ') :
    applyPost a (d :: r) = some (a, d :: r) := by
  have h1 : d ≠ '?' := plain_ne hd (by decide) (by decide)
  have h2 : d ≠ '+' := plain_ne hd (by decide) (by decide)
  have h3 : d ≠ '*' := plain_ne hd (by decide) (by decide)
  show (if d = '?' then postTail (RE.opt a) r
    else if d = '+' then postTail (RE.plus a) r
    else if d = '*' then postTail (RE.star a) r
    else some (a, d :: r)) = some (a, d :: r)
  rw [if_neg h1, if_neg h2, if_neg h3]

theorem parseF_atom_plain (g : Nat) (c : Char) (T' : List Char)
    (hc : c.isAlphanum = true ∨ c = ' ') :
    parseF (g + 1) PMode.atom (c :: T') = some (RE.ch c, T') := by
  have h1 : c ≠ '(' := plain_ne hc (by decide) (by decide)
  have h2 : c ≠ '\\' := plain_ne hc (by decide) (by decide)
  have h3 : c ≠ '.' := plain_ne hc (by decide) (by decide)
  show (if c = '(' then _
    else if c = '\\' then _
    else if c = '.' then some (RE.anyc, T')
    else if specialChar c then none
    else some (RE.ch c, T')) = some (RE.ch c, T')
  rw [if_neg h1, if_neg h2, if_neg h3,
    if_neg (by rw [plain_not_special hc]; exact Bool.false_ne_true)]

theorem parseF_cat_plain : ∀ (f : Nat) (T : List Char),
    (∀ c ∈ T, c.isAlphanum = true ∨ c = ' ') → T.length + 1 ≤ f →
    parseF f PMode.cat T = some (litRE T, [])
  | 0, _, _, hf => absurd hf (by omega)
  | _ + 1, [], _, _ => rfl
  | f + 1, c :: T', hp, hf => by
    have hc := hp c (List.mem_cons_self _ _)
    have hne1 : c ≠ ')' := plain_ne hc (by decide) (by decide)
    have hne2 : c ≠ '|' := plain_ne hc (by decide) (by decide)
    obtain ⟨f', rfl⟩ : ∃ f', f = f' + 1 :=
      ⟨f - 1, by simp only [List.length_cons] at hf; omega⟩
    rw [parseF]
    rw [if_neg (by simp [hne1, hne2])]
    rw [parseF_atom_plain f' c T' hc]
    have hpost : applyPost (RE.ch c) T' = some (RE.ch c, T') := by
      cases T' with
      | nil => rfl
      | cons d r =>
        exact applyPost_cons_plain _ d r (hp d (List.mem_cons_of_mem _
          (List.mem_cons_self _ _)))
    simp only [hpost, parseF_cat_plain (f' + 1) T'
      (fun d hd => hp d (List.mem_cons_of_mem _ hd))
      (by simp only [List.length_cons] at hf; omega)]
    rfl
termination_by f => f

theorem parseF_alt_plain (f : Nat) (T : List Char)
    (hp : ∀ c ∈ T, c.isAlphanum = true ∨ c = ' ') (hf : T.length + 2 ≤ f) :
    parseF f PMode.alt T = some (litRE T, []) := by
  obtain ⟨f', rfl⟩ : ∃ f', f = f' + 1 := ⟨f - 1, by omega⟩
  rw [parseF]
  rw [parseF_cat_plain f' T hp (by omega)]

theorem compile_plain {T : List Char}
    (hp : ∀ c ∈ T, c.isAlphanum = true ∨ c = ' ') :
    compile T = some (litRE T) := by
  unfold compile
  rw [parseF_alt_plain (2 * T.length + 4) T hp (by omega)]

/-- On marker-free plain text the `strip_markers` hypothesis bundle follows
from the character class alone. -/
theorem strip_markers_id_plain {T : List Char}
    (hp : ∀ c ∈ T, c.isAlphanum = true ∨ c = ' ')
    (hd : hasSub [' ', ' '] T = false) :
    strip_markers T = T := by
  apply strip_markers_id_clean
  · exact fun hm => plain_ne (hp _ hm) (by decide) (by decide) rfl
  · exact fun hm => plain_ne (hp _ hm) (by decide) (by decide) rfl
  · exact fun hm => plain_ne (hp _ hm) (by decide) (by decide) rfl
  · exact containsSup_false_of_no_lt
      (fun hm => plain_ne (hp _ hm) (by decide) (by decide) rfl)
  · exact hd
  · exact hasSub_false_of_pat_mem_not_mem
      (show (',' : Char) ∈ [' ', ','] from by simp)
      (fun hm => plain_ne (hp _ hm) (by decide) (by decide) rfl)

/-- C1 (amended): for text made of letters, digits and single spaces (no two
consecutive spaces), the pattern produced by `regexify_markers` — here the
text itself, since no marker or `' ,'` occurs — compiles, and the compiled
regex matches both the text and its marker-stripped form.  The claim over
arbitrary text is refuted by `regexify_claim_fails_at_plus`: regex
metacharacters of the input are not escaped, so e.g. `'+'` yields a pattern
that does not even compile. -/
theorem regexify_selfmatch_plain (T : List Char)
    (hp : ∀ c ∈ T, c.isAlphanum = true ∨ c = ' ')
    (hd : hasSub [' ', ' '] T = false) :
    ∃ r, compile (regexify_markers T) = some r ∧
      rmatch r T = true ∧ rmatch r (strip_markers T) = true := by
  refine ⟨litRE T, ?_, ?_, ?_⟩
  · rw [regexify_markers_plain hp, compile_plain hp]
  · exact litRE_self T
  · rw [strip_markers_id_plain hp hd]
    exact litRE_self T

/-- C1: counterexample — for the input `"+"` the produced pattern is `"+"`
itself (no marker to rewrite), and `"+"` is not a valid regular expression
(a quantifier with nothing to repeat), so the pattern does not compile, let
alone match: the self-match contract fails on inputs containing regex
metacharacters. -/
theorem regexify_claim_fails_at_plus :
    ¬ ∃ r, compile (regexify_markers ['+']) = some r ∧
      rmatch r ['+'] = true ∧ rmatch r (strip_markers ['+']) = true := by
  intro h
  obtain ⟨r, hr, -, -⟩ := h
  rw [show compile (regexify_markers ['+']) = none from by decide] at hr
  cases hr

/-- C1 (witness): the amended self-match property at a concrete plain
input. -/
theorem regexify_selfmatch_plain_witness :
    ∃ r, compile (regexify_markers "log nr 55".toList) = some r ∧
      rmatch r "log nr 55".toList = true ∧
      rmatch r (strip_markers "log nr 55".toList) = true :=
  regexify_selfmatch_plain "log nr 55".toList (by decide) (by decide)

/-! ### C9: the table-protection loop on an unterminated table -/

theorem findSub_replicate_tag (m : Nat) :
    findSub tblOpen (List.replicate m 'a' ++ tblOpen) = some m := by
  induction m with
  | zero =>
    have h0 : findSub tblOpen (tblOpen ++ []) = some 0 :=
      findSub_append_self (by decide) []
    rw [List.append_nil] at h0
    simpa using h0
  | succ m ih =>
    rw [List.replicate_succ, List.cons_append]
    have hlw : leadsWith tblOpen ('a' :: (List.replicate m 'a' ++ tblOpen)) = false := by
      show leadsWith ('<' :: "table width=\"100%\">".toList) _ = false
      simp [leadsWith]
    rw [findSub, if_neg (by simp [hlw]), ih]
    rfl

theorem drop_replicate_append (c m : Nat) (hc : c ≤ m) (z : List Char) :
    (List.replicate m 'a' ++ z).drop c = List.replicate (m - c) 'a' ++ z := by
  have h1 : List.replicate m 'a' =
      List.replicate c 'a' ++ List.replicate (m - c) 'a' := by
    rw [← List.replicate_add]
    congr 1
    omega
  rw [h1, List.append_assoc]
  have h2 := List.drop_left (List.replicate c 'a') (List.replicate (m - c) 'a' ++ z)
  rw [List.length_replicate] at h2
  exact h2

theorem pyFindFrom_replicate_tag (m c : Nat) (hc : c ≤ m) :
    pyFindFrom tblOpen (List.replicate m 'a' ++ tblOpen) c = (m : Int) := by
  unfold pyFindFrom
  rw [drop_replicate_append c m hc, findSub_replicate_tag]
  show (c : Int) + ((m - c : Nat) : Int) = (m : Int)
  omega

theorem pyFindFrom_close_none (m c : Nat) :
    pyFindFrom tblClose (List.replicate m 'a' ++ tblOpen) c = -1 := by
  have hnm : '/' ∉ (List.replicate m 'a' ++ tblOpen).drop c := by
    intro hm
    rcases List.mem_append.mp (List.drop_subset _ _ hm) with h | h
    · exact absurd (List.eq_of_mem_replicate h) (by decide)
    · exact absurd h (by decide)
  unfold pyFindFrom
  rw [findSub_none_of_not_mem (show '/' ∈ tblClose from by decide) hnm]

theorem tblContent_length (k : Nat) :
    (List.replicate k 'a' ++ tblOpen).length = k + 20 := by
  rw [List.length_append, List.length_replicate,
    show tblOpen.length = 20 from by decide]

theorem pyIdx_tbl_nat (k n : Nat) (hn : n ≤ k + 20) :
    pyIdx (List.replicate k 'a' ++ tblOpen).length (n : Int) = n := by
  unfold pyIdx
  rw [if_neg (by omega), tblContent_length, Int.toNat_natCast]
  omega

theorem pySlice_tbl_left (k : Nat) :
    pySlice (List.replicate k 'a' ++ tblOpen) 0 (k : Int) = List.replicate k 'a' := by
  unfold pySlice
  rw [show ((0 : Int)) = ((0 : Nat) : Int) from rfl, pyIdx_tbl_nat k 0 (by omega),
    pyIdx_tbl_nat k k (by omega), List.drop_zero]
  have h := List.take_left (List.replicate k 'a') tblOpen
  rw [List.length_replicate] at h
  exact h

theorem pySlice_tbl_mid (k : Nat) (hk : 8 ≤ k) :
    pySlice (List.replicate k 'a' ++ tblOpen) (k : Int) 7 = [] := by
  unfold pySlice
  rw [show ((7 : Int)) = ((7 : Nat) : Int) from rfl, pyIdx_tbl_nat k 7 (by omega),
    pyIdx_tbl_nat k k (by omega)]
  apply List.drop_eq_nil_of_le
  simp only [List.length_take]
  omega

theorem pySliceEnd_tbl (k : Nat) (hk : 7 ≤ k) :
    pySliceEnd (List.replicate k 'a' ++ tblOpen) 7 =
      List.replicate (k - 7) 'a' ++ tblOpen := by
  unfold pySliceEnd
  rw [show ((7 : Int)) = ((7 : Nat) : Int) from rfl, pyIdx_tbl_nat k 7 (by omega)]
  exact drop_replicate_append 7 k hk tblOpen

theorem tableLoopAux_succ (fuel : Nat) (content : List Char) (cursor : Nat)
    (loc : Int) (hloc : loc > -1) :
    tableLoopAux (fuel + 1) content cursor loc =
      tableLoopAux fuel
        (pySlice content 0 loc ++
          replaceL ['.'] dotTok
            (pySlice content loc (pyFindFrom tblClose content cursor + 8)) ++
          pySliceEnd content (pyFindFrom tblClose content cursor + 8))
        (loc.toNat + 1)
        (pyFindFrom tblOpen
          (pySlice content 0 loc ++
            replaceL ['.'] dotTok
              (pySlice content loc (pyFindFrom tblClose content cursor + 8)) ++
            pySliceEnd content (pyFindFrom tblClose content cursor + 8))
          (loc.toNat + 1)) := by
  rw [tableLoopAux, if_pos hloc]

theorem tableLoop_diverges : ∀ (fuel k cursor : Nat), 8 ≤ k → cursor ≤ k →
    tableLoopAux fuel (List.replicate k 'a' ++ tblOpen) cursor (k : Int) = none
  | 0, k, _, hk, _ => by
    rw [tableLoopAux, if_pos (show (k : Int) > -1 by omega)]
  | fuel + 1, k, cursor, hk, hc => by
    rw [tableLoopAux_succ fuel _ cursor (k : Int) (by omega),
      pyFindFrom_close_none k cursor,
      show ((-1 : Int) + 8) = 7 from by norm_num,
      pySlice_tbl_left k, pySlice_tbl_mid k hk, pySliceEnd_tbl k (by omega),
      show replaceL ['.'] dotTok [] = [] from rfl,
      show List.replicate k 'a' ++ [] ++ (List.replicate (k - 7) 'a' ++ tblOpen) =
          List.replicate (k + (k - 7)) 'a' ++ tblOpen from by
        rw [List.append_nil, ← List.append_assoc, ← List.replicate_add],
      Int.toNat_natCast,
      pyFindFrom_replicate_tag (k + (k - 7)) (k + 1) (by omega)]
    exact tableLoop_diverges fuel (k + (k - 7)) (k + 1) (by omega) (by omega)

theorem separate_sentences_unfold (content : List Char) :
    separate_sentences content =
      match tableProtect (shortsEncode content) with
      | none => none
      | some c =>
        match senLoop (splitOnDot c) [] [] with
        | none => none
        | some sens => finalFix c sens := rfl

/-- C9: on an unterminated table whose start marker sits at an index greater
than 7 — here `'aaaaaaaa<table width="100%">'` — the table-protection scan
never terminates: `html_end_loc` becomes `-1 + 8 = 7`, the splice
`content[:html_loc] + table + content[7:]` duplicates `content[7:html_loc]`,
and the re-found start marker moves right forever, so for no amount of fuel
does the loop exit, and `separate_sentences` never returns (and protects
nothing), contrary to the claimed bounded scan that protects the remainder. -/
theorem table_protection_diverges :
    (∀ fuel : Nat,
      tableLoopAux fuel (List.replicate 8 'a' ++ tblOpen) 0 ((8 : Nat) : Int) = none) ∧
    separate_sentences (List.replicate 8 'a' ++ tblOpen) = none := by
  constructor
  · intro fuel
    exact tableLoop_diverges fuel 8 0 (by omega) (by omega)
  · have henc : shortsEncode (List.replicate 8 'a' ++ tblOpen) =
        List.replicate 8 'a' ++ tblOpen := by decide
    have hprot : tableProtect (List.replicate 8 'a' ++ tblOpen) = none := by
      unfold tableProtect
      rw [show pyFindFrom tblOpen (List.replicate 8 'a' ++ tblOpen) 0 =
        ((8 : Nat) : Int) from by decide]
      exact tableLoop_diverges _ 8 0 (by omega) (by omega)
    rw [separate_sentences_unfold, henc, hprot]
